import Mathlib

/-!
Verification of the variational quantum search (QAOA) notebooks.

The program simulates a split-operator variational ansatz on `n` qubits:
state vectors are dense complex vectors of length `N = 2 ^ n`, the two
generators are negated rank-one outer products, one layer multiplies the
state by two matrix exponentials, and the cost is the real part of the
expectation value of the marking generator in the evolved state.

We embed the numerical core shallowly: `numpy` vectors become functions
`Fin N → ℂ`, `numpy` matrices become `Matrix (Fin N) (Fin N) ℂ`,
`scipy.linalg.expm` becomes `NormedSpace.exp ℂ`, and `.dot` becomes
`Matrix.mulVec` / `Matrix.dotProduct`.  Angle vectors are embedded as total
functions `ℕ → ℝ`; the python code only ever reads the entries
`params[2*i]`, `params[2*i+1]` for `i < p`.
-/

open scoped Matrix ComplexConjugate

namespace Island

/-- `np.outer(u, v)`: the matrix with entries `u i * v j`.
Note that `np.outer` does NOT conjugate its second argument. -/
def outer {N : ℕ} (u v : Fin N → ℂ) : Matrix (Fin N) (Fin N) ℂ :=
  Matrix.of fun i j => u i * v j

/-- `plus_state(n_qubits)`: `np.array([1]*(2**n_qubits))/np.sqrt(2**n_qubits)`,
the length-`2^n` vector with every entry `1/sqrt(2^n)`. -/
noncomputable def plus_state (n_qubits : ℕ) : Fin (2 ^ n_qubits) → ℂ :=
  fun _ => (1 : ℂ) / (Real.sqrt (2 ^ n_qubits) : ℝ)

/-- `H_operator(target_state)`: `-np.outer(target_state, target_state)`. -/
def H_operator {N : ℕ} (target_state : Fin N → ℂ) : Matrix (Fin N) (Fin N) ℂ :=
  -outer target_state target_state

/-- `B_operator(n_qubits)`: `-np.outer(plus_state(n_qubits), plus_state(n_qubits))`. -/
noncomputable def B_operator (n_qubits : ℕ) :
    Matrix (Fin (2 ^ n_qubits)) (Fin (2 ^ n_qubits)) ℂ :=
  -outer (plus_state n_qubits) (plus_state n_qubits)

/-- `qaoa_step(state, H, n_qubits, params)`:
`la.expm(-1j*params[1]*B_operator(n_qubits)) @ la.expm(-1j*params[0]*H) @ state`.
The qubit count is passed first because it fixes the matrix dimension in the
dependent types; `a`, `b` are `params[0]`, `params[1]`.  Note the driver
generator is re-derived from `n_qubits` inside the function body, exactly as
in the source (`B=B_operator(n_qubits)`). -/
noncomputable def qaoa_step (n_qubits : ℕ) (state : Fin (2 ^ n_qubits) → ℂ)
    (H : Matrix (Fin (2 ^ n_qubits)) (Fin (2 ^ n_qubits)) ℂ) (a b : ℝ) :
    Fin (2 ^ n_qubits) → ℂ :=
  let B := B_operator n_qubits
  let state1 := (NormedSpace.exp ℂ ((-Complex.I * (a : ℂ)) • H)) *ᵥ state
  (NormedSpace.exp ℂ ((-Complex.I * (b : ℂ)) • B)) *ᵥ state1

/-- The loop of `cost_function`: `ini_state=plus_state(n_qubits)` followed by
`for i in range(p): ini_state=qaoa_step(ini_state,H,n_qubits,[params[2*i],params[2*i+1]])`. -/
noncomputable def final_state (n_qubits : ℕ)
    (H : Matrix (Fin (2 ^ n_qubits)) (Fin (2 ^ n_qubits)) ℂ) (p : ℕ) (params : ℕ → ℝ) :
    Fin (2 ^ n_qubits) → ℂ :=
  (List.range p).foldl
    (fun s i => qaoa_step n_qubits s H (params (2 * i)) (params (2 * i + 1)))
    (plus_state n_qubits)

/-- `cost_function(H, n_qubits, p, params)`: starts from `plus_state(n_qubits)`,
applies `p` QAOA steps with angles `params[2*i], params[2*i+1]`, and returns
`(real(state^H . H . state), state)`. -/
noncomputable def cost_function (n_qubits : ℕ)
    (H : Matrix (Fin (2 ^ n_qubits)) (Fin (2 ^ n_qubits)) ℂ) (p : ℕ) (params : ℕ → ℝ) :
    ℝ × (Fin (2 ^ n_qubits) → ℂ) :=
  ((star (final_state n_qubits H p params) ⬝ᵥ H *ᵥ final_state n_qubits H p params).re,
    final_state n_qubits H p params)

/-- `overlap(target_state, state)`:
`np.real(state.conj().T @ np.outer(target_state, target_state) @ state)`. -/
noncomputable def overlap {N : ℕ} (target_state state : Fin N → ℂ) : ℝ :=
  (star state ⬝ᵥ (outer target_state target_state) *ᵥ state).re

/-- Squared Euclidean norm of a complex vector (`np.linalg.norm(v)**2`). -/
noncomputable def norm2 {N : ℕ} (v : Fin N → ℂ) : ℝ :=
  ∑ i, Complex.normSq (v i)

/-- A vector is real-valued when every entry is fixed by conjugation. -/
def IsRealVec {N : ℕ} (v : Fin N → ℂ) : Prop :=
  ∀ i, conj (v i) = v i

theorem plus_state_apply (n i) :
    plus_state n i = (1 : ℂ) / (Real.sqrt (2 ^ n) : ℝ) := rfl

theorem plus_state_norm2 (n : ℕ) : norm2 (plus_state n) = 1 := by
  have h2 : (0 : ℝ) ≤ 2 ^ n := by positivity
  have hs : Real.sqrt (2 ^ n) * Real.sqrt (2 ^ n) = 2 ^ n := Real.mul_self_sqrt h2
  simp only [norm2, plus_state, Complex.normSq_div, Complex.normSq_one,
    Complex.normSq_ofReal, Finset.sum_const, Finset.card_univ, Fintype.card_fin,
    nsmul_eq_mul, hs]
  rw [Nat.cast_pow, Nat.cast_ofNat]
  field_simp

theorem plus_state_isReal (n : ℕ) : IsRealVec (plus_state n) := by
  intro _i
  simp [plus_state]

theorem norm2_nonneg {N : ℕ} (v : Fin N → ℂ) : 0 ≤ norm2 v :=
  Finset.sum_nonneg fun _i _ => Complex.normSq_nonneg _

theorem star_dotProduct_self {N : ℕ} (v : Fin N → ℂ) :
    star v ⬝ᵥ v = (norm2 v : ℂ) := by
  simp only [Matrix.dotProduct, Pi.star_apply, norm2, Complex.ofReal_sum]
  refine Finset.sum_congr rfl fun i _ => ?_
  rw [Complex.star_def, mul_comm, Complex.mul_conj]

/-- Multiplication by a matrix `U` with `Uᴴ * U = 1` preserves the squared norm. -/
theorem norm2_mulVec_of_unitary {N : ℕ} {U : Matrix (Fin N) (Fin N) ℂ}
    (hU : Uᴴ * U = 1) (v : Fin N → ℂ) : norm2 (U *ᵥ v) = norm2 v := by
  have h : star (U *ᵥ v) ⬝ᵥ (U *ᵥ v) = star v ⬝ᵥ v := by
    rw [Matrix.star_mulVec, Matrix.dotProduct_mulVec, Matrix.vecMul_vecMul, hU,
      Matrix.vecMul_one]
  rw [star_dotProduct_self, star_dotProduct_self] at h
  exact_mod_cast h

/-- For a Hermitian generator `M` and a real angle `θ`, the propagator
`expm(-1j*θ*M)` is unitary. -/
theorem exp_unitary_of_hermitian {N : ℕ} {M : Matrix (Fin N) (Fin N) ℂ}
    (hM : M.IsHermitian) (θ : ℝ) :
    (NormedSpace.exp ℂ ((-Complex.I * (θ : ℂ)) • M))ᴴ *
      NormedSpace.exp ℂ ((-Complex.I * (θ : ℂ)) • M) = 1 := by
  have h1 : ((-Complex.I * (θ : ℂ)) • M)ᴴ = -((-Complex.I * (θ : ℂ)) • M) := by
    rw [Matrix.conjTranspose_smul, hM.eq]
    rw [← neg_smul]
    congr 1
    simp [Complex.ext_iff]
  have hc : Commute (-((-Complex.I * (θ : ℂ)) • M)) ((-Complex.I * (θ : ℂ)) • M) :=
    (Commute.refl _).neg_left
  have h2 := Matrix.exp_add_of_commute (𝕂 := ℂ) _ _ hc
  rw [neg_add_cancel, NormedSpace.exp_zero] at h2
  rw [← Matrix.exp_conjTranspose, h1, ← h2]

theorem H_operator_isHermitian {N : ℕ} {t : Fin N → ℂ} (ht : IsRealVec t) :
    (H_operator t).IsHermitian := by
  refine Matrix.IsHermitian.ext fun i j => ?_
  simp only [H_operator, outer, Matrix.neg_apply, Matrix.of_apply, star_neg, star_mul']
  rw [show star (t j) = conj (t j) from rfl, show star (t i) = conj (t i) from rfl,
    ht i, ht j, mul_comm]

theorem B_operator_eq (n : ℕ) : B_operator n = H_operator (plus_state n) := rfl

theorem B_operator_isHermitian (n : ℕ) : (B_operator n).IsHermitian := by
  rw [B_operator_eq]
  exact H_operator_isHermitian (plus_state_isReal n)

/-- One QAOA step with a Hermitian marking generator preserves the squared norm. -/
theorem norm2_qaoa_step {n : ℕ} {H : Matrix (Fin (2 ^ n)) (Fin (2 ^ n)) ℂ}
    (hH : H.IsHermitian) (s : Fin (2 ^ n) → ℂ) (a b : ℝ) :
    norm2 (qaoa_step n s H a b) = norm2 s := by
  unfold qaoa_step
  rw [norm2_mulVec_of_unitary (exp_unitary_of_hermitian (B_operator_isHermitian n) b),
    norm2_mulVec_of_unitary (exp_unitary_of_hermitian hH a)]

theorem norm2_foldl_qaoa {n : ℕ} {H : Matrix (Fin (2 ^ n)) (Fin (2 ^ n)) ℂ}
    (hH : H.IsHermitian) (params : ℕ → ℝ) (l : List ℕ) (s : Fin (2 ^ n) → ℂ) :
    norm2 (l.foldl (fun s i => qaoa_step n s H (params (2 * i)) (params (2 * i + 1))) s)
      = norm2 s := by
  induction l generalizing s with
  | nil => rfl
  | cons hd tl ih =>
      rw [List.foldl_cons, ih, norm2_qaoa_step hH]

/-- The state returned by `cost_function` has unit (squared) norm whenever the
supplied generator is Hermitian. -/
theorem norm2_cost_function_state {n : ℕ} {H : Matrix (Fin (2 ^ n)) (Fin (2 ^ n)) ℂ}
    (hH : H.IsHermitian) (p : ℕ) (params : ℕ → ℝ) :
    norm2 ((cost_function n H p params).2) = 1 := by
  show norm2 (final_state n H p params) = 1
  unfold final_state
  rw [norm2_foldl_qaoa hH, plus_state_norm2]

theorem outer_mulVec {N : ℕ} (u v s : Fin N → ℂ) :
    (outer u v) *ᵥ s = fun i => u i * (v ⬝ᵥ s) := by
  funext i
  simp [outer, Matrix.mulVec, Matrix.dotProduct, Finset.mul_sum, mul_assoc]

theorem conj_dotProduct_of_real {N : ℕ} {t : Fin N → ℂ} (ht : IsRealVec t)
    (s : Fin N → ℂ) : conj (t ⬝ᵥ s) = ∑ i, conj (s i) * t i := by
  rw [Matrix.dotProduct, map_sum]
  refine Finset.sum_congr rfl fun i _ => ?_
  rw [map_mul, ht i, mul_comm]

/-- The quadratic form of `H_operator t` for a real `t`:
`real(s^H . H_operator(t) . s) = -|t . s|^2` (as a complex identity). -/
theorem star_dot_H_operator {N : ℕ} {t : Fin N → ℂ} (ht : IsRealVec t)
    (s : Fin N → ℂ) :
    star s ⬝ᵥ (H_operator t) *ᵥ s = -((Complex.normSq (t ⬝ᵥ s) : ℝ) : ℂ) := by
  rw [show H_operator t = -outer t t from rfl, Matrix.neg_mulVec, Matrix.dotProduct_neg,
    outer_mulVec]
  have h1 : star s ⬝ᵥ (fun i => t i * (t ⬝ᵥ s)) = (∑ i, conj (s i) * t i) * (t ⬝ᵥ s) := by
    rw [Matrix.dotProduct, Finset.sum_mul]
    refine Finset.sum_congr rfl fun i _ => ?_
    rw [Pi.star_apply, mul_assoc]
    rfl
  rw [h1, ← conj_dotProduct_of_real ht s, mul_comm, Complex.mul_conj]

/-- Cauchy-Schwarz for the bilinear (unconjugated) pairing `t ⬝ᵥ s`. -/
theorem normSq_dotProduct_le {N : ℕ} (t s : Fin N → ℂ) :
    Complex.normSq (t ⬝ᵥ s) ≤ norm2 t * norm2 s := by
  let x : EuclideanSpace ℂ (Fin N) := fun i => conj (t i)
  let y : EuclideanSpace ℂ (Fin N) := s
  have hinner : (inner x y : ℂ) = t ⬝ᵥ s := by
    rw [PiLp.inner_apply, Matrix.dotProduct]
    refine Finset.sum_congr rfl fun i _ => ?_
    rw [RCLike.inner_apply]
    simp [x, y]
  have hx : ‖x‖ ^ 2 = norm2 t := by
    rw [EuclideanSpace.norm_eq, Real.sq_sqrt (by positivity)]
    refine Finset.sum_congr rfl fun i _ => ?_
    simp [x, Complex.sq_abs]
  have hy : ‖y‖ ^ 2 = norm2 s := by
    rw [EuclideanSpace.norm_eq, Real.sq_sqrt (by positivity)]
    refine Finset.sum_congr rfl fun i _ => ?_
    simp [y, Complex.sq_abs]
  have h := norm_inner_le_norm (𝕜 := ℂ) x y
  have h2 : ‖(inner x y : ℂ)‖ ^ 2 ≤ (‖x‖ * ‖y‖) ^ 2 := by
    have hn : 0 ≤ ‖(inner x y : ℂ)‖ := norm_nonneg _
    nlinarith
  rw [hinner] at h2
  rw [mul_pow, hx, hy] at h2
  calc Complex.normSq (t ⬝ᵥ s) = ‖t ⬝ᵥ s‖ ^ 2 := by
        rw [← Complex.sq_abs]
        rfl
    _ ≤ norm2 t * norm2 s := h2

/-- The scalar returned by `cost_function` with the marking generator built from
a real unit-norm target equals minus the squared magnitude of the pairing of the
target with the final state. -/
theorem cost_function_fst_eq {n : ℕ} {t : Fin (2 ^ n) → ℂ} (ht : IsRealVec t)
    (p : ℕ) (params : ℕ → ℝ) :
    (cost_function n (H_operator t) p params).1 =
      -Complex.normSq (t ⬝ᵥ (cost_function n (H_operator t) p params).2) := by
  have h := star_dot_H_operator ht (final_state n (H_operator t) p params)
  show (star (final_state n (H_operator t) p params) ⬝ᵥ
    H_operator t *ᵥ final_state n (H_operator t) p params).re = _
  rw [h]
  simp
  rfl

theorem qaoa_step_zero (n : ℕ) (s : Fin (2 ^ n) → ℂ)
    (H : Matrix (Fin (2 ^ n)) (Fin (2 ^ n)) ℂ) :
    qaoa_step n s H 0 0 = s := by
  unfold qaoa_step
  simp [NormedSpace.exp_zero, Matrix.one_mulVec]

theorem final_state_one (n : ℕ) (H : Matrix (Fin (2 ^ n)) (Fin (2 ^ n)) ℂ)
    (params : ℕ → ℝ) :
    final_state n H 1 params = qaoa_step n (plus_state n) H (params 0) (params 1) := by
  unfold final_state
  rw [show List.range 1 = [0] from rfl, List.foldl_cons, List.foldl_nil]

/-- Evaluation of a sum over the two-element index type `Fin (2 ^ 1)` (the
dimension of a one-qubit state space as it appears in the embedding). -/
theorem sum_univ_pow_one {M : Type*} [AddCommMonoid M] (f : Fin (2 ^ 1) → M) :
    ∑ i, f i = f 0 + f 1 :=
  Fin.sum_univ_two f

/-- The complex unit-norm vector `(i, 0)`, a valid unit-norm target for which
`np.outer` without conjugation misbehaves. -/
noncomputable def tI : Fin (2 ^ 1) → ℂ := ![Complex.I, 0]

theorem tI_zero : tI 0 = Complex.I := rfl

theorem tI_one : tI 1 = 0 := rfl

theorem H_operator_apply {N : ℕ} (t : Fin N → ℂ) (i j : Fin N) :
    H_operator t i j = -(t i * t j) := rfl

theorem tI_norm2 : norm2 tI = 1 := by
  rw [norm2, sum_univ_pow_one, tI_zero, tI_one]
  simp

theorem sqrt_two_sq_complex :
    ((Real.sqrt 2 : ℝ) : ℂ) * ((Real.sqrt 2 : ℝ) : ℂ) = 2 := by
  rw [← Complex.ofReal_mul, Real.mul_self_sqrt (by norm_num)]
  norm_num

theorem plus_state_one_apply (i : Fin 2) :
    plus_state 1 i = 1 / ((Real.sqrt 2 : ℝ) : ℂ) := by
  simp [plus_state]

theorem cost_tI_eval :
    star (plus_state 1) ⬝ᵥ (H_operator tI) *ᵥ (plus_state 1) = 1 / 2 := by
  have hsq := sqrt_two_sq_complex
  have hne : ((Real.sqrt 2 : ℝ) : ℂ) ≠ 0 := by
    intro h
    rw [h, mul_zero] at hsq
    norm_num at hsq
  simp only [Matrix.dotProduct, Matrix.mulVec, Pi.star_apply, H_operator_apply,
    sum_univ_pow_one, tI_zero, tI_one, plus_state_one_apply]
  rw [show star ((1 : ℂ) / ((Real.sqrt 2 : ℝ) : ℂ)) = 1 / ((Real.sqrt 2 : ℝ) : ℂ) by
    simp [Complex.ext_iff]]
  rw [Complex.I_mul_I]
  field_simp
  linear_combination (-1 : ℂ) * hsq

/-- The computational basis state `|0>` on one qubit, a real unit-norm target. -/
noncomputable def e0 : Fin (2 ^ 1) → ℂ := ![1, 0]

theorem e0_isReal : IsRealVec e0 := by
  intro i
  fin_cases i <;> simp [e0]

theorem e0_norm2 : norm2 e0 = 1 := by
  rw [norm2, sum_univ_pow_one]
  simp [e0]

/-- C1 (amended to real-valued targets): for every qubit count, depth, angle
vector and REAL unit-norm target state `t`, the scalar returned by
`cost_function(H_operator(t), n, p, params)` lies in the interval `[-1, 0]`. -/
theorem C1_cost_in_unit_interval {n : ℕ} {t : Fin (2 ^ n) → ℂ}
    (ht : IsRealVec t) (htn : norm2 t = 1) (p : ℕ) (params : ℕ → ℝ) :
    -1 ≤ (cost_function n (H_operator t) p params).1 ∧
      (cost_function n (H_operator t) p params).1 ≤ 0 := by
  rw [cost_function_fst_eq ht]
  constructor
  · have hle := normSq_dotProduct_le t ((cost_function n (H_operator t) p params).2)
    rw [htn, norm2_cost_function_state (H_operator_isHermitian ht), one_mul] at hle
    linarith
  · have h0 := Complex.normSq_nonneg (t ⬝ᵥ (cost_function n (H_operator t) p params).2)
    linarith

/-- Witness for C1 at `n = 1`, `p = 1`, target `|0>`, zero angles. -/
theorem C1_cost_in_unit_interval_witness :
    (IsRealVec e0 ∧ norm2 e0 = 1) ∧
      (-1 ≤ (cost_function 1 (H_operator e0) 1 (fun _ => 0)).1 ∧
        (cost_function 1 (H_operator e0) 1 (fun _ => 0)).1 ≤ 0) :=
  ⟨⟨e0_isReal, e0_norm2⟩, C1_cost_in_unit_interval e0_isReal e0_norm2 1 (fun _ => 0)⟩

/-- Counterexample to C1 as stated: for the (complex) unit-norm target
`t = (i, 0)` on one qubit the cost at depth `1` with zero angles is `1/2 > 0`,
outside `[-1, 0]`: `np.outer` does not conjugate, so `H_operator` applied to a
complex target is not `-|t><t|`. -/
theorem C1_counterexample :
    norm2 tI = 1 ∧ 0 < (cost_function 1 (H_operator tI) 1 (fun _ => 0)).1 := by
  refine ⟨tI_norm2, ?_⟩
  have hfs : final_state 1 (H_operator tI) 1 (fun _ => 0) = plus_state 1 := by
    rw [final_state_one]
    exact qaoa_step_zero 1 (plus_state 1) (H_operator tI)
  show 0 < (star (final_state 1 (H_operator tI) 1 fun _ => 0) ⬝ᵥ
    H_operator tI *ᵥ final_state 1 (H_operator tI) 1 fun _ => 0).re
  rw [hfs, cost_tI_eval]
  norm_num [Complex.div_re, Complex.normSq_apply]

/-- C2 (amended to generators built from real-valued targets): one application
of `qaoa_step` with the marking generator `H_operator(t)` for a real target `t`
maps a unit-norm state to a unit-norm state, and the final state returned by
`cost_function` has unit norm for every depth and angle vector. -/
theorem C2_norm_preserved {n : ℕ} {t : Fin (2 ^ n) → ℂ} (ht : IsRealVec t)
    (s : Fin (2 ^ n) → ℂ) (hs : norm2 s = 1) (a b : ℝ) (p : ℕ) (params : ℕ → ℝ) :
    norm2 (qaoa_step n s (H_operator t) a b) = 1 ∧
      norm2 ((cost_function n (H_operator t) p params).2) = 1 := by
  refine ⟨?_, norm2_cost_function_state (H_operator_isHermitian ht) p params⟩
  rw [norm2_qaoa_step (H_operator_isHermitian ht), hs]

/-- Witness for C2 at `n = 1`, target `|0>`, state `|0>`, angles `(1, 1)`. -/
theorem C2_norm_preserved_witness :
    (IsRealVec e0 ∧ norm2 e0 = 1) ∧
      (norm2 (qaoa_step 1 e0 (H_operator e0) 1 1) = 1 ∧
        norm2 ((cost_function 1 (H_operator e0) 1 (fun _ => 0)).2) = 1) :=
  ⟨⟨e0_isReal, e0_norm2⟩, C2_norm_preserved e0_isReal e0 e0_norm2 1 1 1 (fun _ => 0)⟩

/-- The complex scalar `(1+i)/sqrt 2`, of unit modulus, whose square is `i`. -/
noncomputable def cC2 : ℂ := (1 + Complex.I) / ((Real.sqrt 2 : ℝ) : ℂ)

/-- The complex unit-norm target `((1+i)/sqrt 2, 0)` on one qubit. -/
noncomputable def tC2 : Fin (2 ^ 1) → ℂ := ![cC2, 0]

theorem cC2_sq : cC2 * cC2 = Complex.I := by
  unfold cC2
  rw [div_mul_div_comm, sqrt_two_sq_complex,
    show (1 + Complex.I) * (1 + Complex.I) = 2 * Complex.I by
      linear_combination Complex.I_sq]
  norm_num

theorem tC2_norm2 : norm2 tC2 = 1 := by
  rw [norm2, sum_univ_pow_one]
  show Complex.normSq cC2 + Complex.normSq 0 = 1
  unfold cC2
  rw [Complex.normSq_div]
  simp [Complex.normSq_apply, Real.mul_self_sqrt (by norm_num : (0:ℝ) ≤ 2)]

/-- Unfolding of `qaoa_step` to its two matrix-exponential factors. -/
theorem qaoa_step_def (n : ℕ) (s : Fin (2 ^ n) → ℂ)
    (H : Matrix (Fin (2 ^ n)) (Fin (2 ^ n)) ℂ) (a b : ℝ) :
    qaoa_step n s H a b =
      (NormedSpace.exp ℂ ((-Complex.I * (b : ℂ)) • B_operator n)) *ᵥ
        ((NormedSpace.exp ℂ ((-Complex.I * (a : ℂ)) • H)) *ᵥ s) := rfl

theorem H_operator_tC2_diagonal :
    H_operator tC2 = Matrix.diagonal ![-Complex.I, 0] := by
  ext i j
  fin_cases i <;> fin_cases j <;>
    simp [H_operator_apply, tC2, Matrix.diagonal, cC2_sq]

/-- The state produced by the counterexample step: `(exp(-1), 0)`. -/
noncomputable def stepResultC2 : Fin (2 ^ 1) → ℂ := ![((Real.exp (-1) : ℝ) : ℂ), 0]

theorem C2_step_eval :
    qaoa_step 1 e0 (H_operator tC2) 1 0 = stepResultC2 := by
  rw [qaoa_step_def]
  rw [show (-Complex.I * ((0 : ℝ) : ℂ)) = 0 by norm_num, zero_smul,
    NormedSpace.exp_zero, Matrix.one_mulVec, H_operator_tC2_diagonal]
  have hsmul : (-Complex.I * ((1 : ℝ) : ℂ)) • Matrix.diagonal ![-Complex.I, 0] =
      Matrix.diagonal ![(-1 : ℂ), 0] := by
    rw [← Matrix.diagonal_smul]
    refine congrArg Matrix.diagonal ?_
    funext i
    fin_cases i <;> simp
  rw [hsmul, Matrix.exp_diagonal]
  funext i
  rw [Matrix.mulVec_diagonal]
  fin_cases i <;>
    simp [Pi.coe_exp, e0, stepResultC2, ← Complex.exp_eq_exp_ℂ, Complex.ofReal_exp]

/-- Counterexample to C2 as stated: for the complex unit-norm target
`t = ((1+i)/sqrt 2, 0)` (for which `H_operator(t)` is NOT Hermitian, since
`np.outer` does not conjugate), one `qaoa_step` with angles `(1, 0)` applied to
the unit-norm state `|0>` returns a state of norm `exp(-1) < 1 - 1e-9`. -/
theorem C2_counterexample :
    norm2 tC2 = 1 ∧ norm2 e0 = 1 ∧
      Real.sqrt (norm2 (qaoa_step 1 e0 (H_operator tC2) 1 0)) < 1 - 1e-9 := by
  refine ⟨tC2_norm2, e0_norm2, ?_⟩
  rw [C2_step_eval]
  have hnum : norm2 stepResultC2 = Real.exp (-1) * Real.exp (-1) := by
    rw [norm2, sum_univ_pow_one]
    show Complex.normSq ((Real.exp (-1) : ℝ) : ℂ) + Complex.normSq 0 = _
    rw [Complex.normSq_ofReal, map_zero, add_zero]
  rw [hnum, Real.sqrt_mul_self (le_of_lt (Real.exp_pos _))]
  have h1 : (2.7182818283 : ℝ) < Real.exp 1 := Real.exp_one_gt_d9
  rw [Real.exp_neg]
  have h2 : (Real.exp 1)⁻¹ < (2.7182818283 : ℝ)⁻¹ :=
    inv_strictAnti₀ (by norm_num) h1
  have h3 : ((2.7182818283 : ℝ))⁻¹ < 1 - 1e-9 := by norm_num
  linarith

theorem final_state_tI_zero :
    final_state 1 (H_operator tI) 1 (fun _ => 0) = plus_state 1 := by
  rw [final_state_one]
  exact qaoa_step_zero 1 (plus_state 1) (H_operator tI)

/-- For a real target the `overlap` of the evolved state with the target equals
the squared magnitude of the (bilinear) pairing. -/
theorem overlap_eq_normSq {N : ℕ} {t : Fin N → ℂ} (ht : IsRealVec t)
    (s : Fin N → ℂ) : overlap t s = Complex.normSq (t ⬝ᵥ s) := by
  have h := star_dot_H_operator ht s
  rw [show H_operator t = -outer t t from rfl, Matrix.neg_mulVec,
    Matrix.dotProduct_neg, neg_eq_iff_eq_neg, neg_neg] at h
  rw [overlap, h, Complex.ofReal_re]

/-- C3 (amended to real-valued targets): for a REAL unit-norm target `t`, the
cost returned by the evaluator equals the negated `overlap` of the final state
with `t`, that overlap is the squared magnitude of the pairing of `t` with the
final state, and it lies in `[0, 1]`.  (The first equality
`cost = -overlap` in fact holds for arbitrary complex `t` as well, by
linearity; realness is needed for the `[0, 1]` bounds.) -/
theorem C3_cost_eq_neg_fidelity {n : ℕ} {t : Fin (2 ^ n) → ℂ}
    (ht : IsRealVec t) (htn : norm2 t = 1) (p : ℕ) (params : ℕ → ℝ) :
    (cost_function n (H_operator t) p params).1 =
        -overlap t ((cost_function n (H_operator t) p params).2) ∧
      overlap t ((cost_function n (H_operator t) p params).2) =
        Complex.normSq (t ⬝ᵥ (cost_function n (H_operator t) p params).2) ∧
      0 ≤ overlap t ((cost_function n (H_operator t) p params).2) ∧
      overlap t ((cost_function n (H_operator t) p params).2) ≤ 1 := by
  have hov := overlap_eq_normSq ht ((cost_function n (H_operator t) p params).2)
  refine ⟨?_, hov, ?_, ?_⟩
  · rw [cost_function_fst_eq ht, hov]
  · rw [hov]
    exact Complex.normSq_nonneg _
  · rw [hov]
    have hle := normSq_dotProduct_le t ((cost_function n (H_operator t) p params).2)
    rw [htn, norm2_cost_function_state (H_operator_isHermitian ht), one_mul] at hle
    exact hle

/-- Witness for C3 at `n = 1`, `p = 1`, target `|0>`, zero angles. -/
theorem C3_cost_eq_neg_fidelity_witness :
    (IsRealVec e0 ∧ norm2 e0 = 1) ∧
      ((cost_function 1 (H_operator e0) 1 (fun _ => 0)).1 =
          -overlap e0 ((cost_function 1 (H_operator e0) 1 (fun _ => 0)).2) ∧
        overlap e0 ((cost_function 1 (H_operator e0) 1 (fun _ => 0)).2) =
          Complex.normSq (e0 ⬝ᵥ (cost_function 1 (H_operator e0) 1 (fun _ => 0)).2) ∧
        0 ≤ overlap e0 ((cost_function 1 (H_operator e0) 1 (fun _ => 0)).2) ∧
        overlap e0 ((cost_function 1 (H_operator e0) 1 (fun _ => 0)).2) ≤ 1) :=
  ⟨⟨e0_isReal, e0_norm2⟩, C3_cost_eq_neg_fidelity e0_isReal e0_norm2 1 (fun _ => 0)⟩

/-- Counterexample to C3 as stated: for the complex unit-norm target
`t = (i, 0)`, the `overlap` ("fidelity") of the evaluator's final state with
`t` is negative, hence outside `[0, 1]`, and it is not the squared magnitude of
any inner product. -/
theorem C3_counterexample :
    norm2 tI = 1 ∧
      overlap tI ((cost_function 1 (H_operator tI) 1 (fun _ => 0)).2) < 0 := by
  refine ⟨tI_norm2, ?_⟩
  show overlap tI (final_state 1 (H_operator tI) 1 fun _ => 0) < 0
  rw [final_state_tI_zero]
  have h := cost_tI_eval
  rw [show H_operator tI = -outer tI tI from rfl, Matrix.neg_mulVec,
    Matrix.dotProduct_neg, neg_eq_iff_eq_neg] at h
  rw [overlap, h]
  norm_num [Complex.div_re, Complex.normSq_apply]

/-- The generator described by the spec: `-v·v^H`, minus the outer product of
`v` with its own CONJUGATE (`np.outer` in the code does not conjugate; this
reference definition follows the spec text for comparison). -/
noncomputable def H_operator_spec {N : ℕ} (v : Fin N → ℂ) :
    Matrix (Fin N) (Fin N) ℂ :=
  -Matrix.of fun i j => v i * conj (v j)

theorem dotProduct_self_of_real {N : ℕ} {v : Fin N → ℂ} (hv : IsRealVec v) :
    v ⬝ᵥ v = ((norm2 v : ℝ) : ℂ) := by
  have hs : star v = v := funext hv
  rw [← star_dotProduct_self v]
  rw [hs]

/-- C4 (amended to real-valued unit vectors): for a REAL unit-norm `v`, the
generator `H_operator(v)` equals `-v·v^H`, is Hermitian, has `v` as an
eigenvector with eigenvalue `-1`, annihilates the orthogonal complement of
`v`, and every eigenvalue is `0` or `-1`; moreover the driver generator is
exactly the same construction applied to the uniform state. -/
theorem C4_generator_props {N : ℕ} {v : Fin N → ℂ} (hv : IsRealVec v)
    (hn : norm2 v = 1) :
    (H_operator v).IsHermitian ∧
      H_operator v = H_operator_spec v ∧
      (H_operator v) *ᵥ v = -v ∧
      (∀ w : Fin N → ℂ, v ⬝ᵥ w = 0 → (H_operator v) *ᵥ w = 0) ∧
      (∀ (μ : ℂ) (u : Fin N → ℂ), u ≠ 0 → (H_operator v) *ᵥ u = μ • u →
        μ = 0 ∨ μ = -1) ∧
      (∀ m : ℕ, B_operator m = H_operator (plus_state m)) := by
  have hvv : v ⬝ᵥ v = 1 := by
    rw [dotProduct_self_of_real hv, hn]
    norm_num
  have hmv : ∀ w : Fin N → ℂ, (H_operator v) *ᵥ w = (-(v ⬝ᵥ w)) • v := by
    intro w
    rw [show H_operator v = -outer v v from rfl, Matrix.neg_mulVec, outer_mulVec]
    funext i
    simp [mul_comm]
  refine ⟨H_operator_isHermitian hv, ?_, ?_, ?_, ?_, fun m => B_operator_eq m⟩
  · unfold H_operator H_operator_spec outer
    refine congrArg Neg.neg ?_
    refine congrArg Matrix.of ?_
    funext i j
    rw [hv j]
  · rw [hmv v, hvv]
    funext i
    simp
  · intro w hw
    rw [hmv w, hw]
    simp
  · intro μ u hu hμu
    by_cases hμ : μ = 0
    · exact Or.inl hμ
    · right
      rw [hmv u] at hμu
      have hueq : u = (μ⁻¹ * -(v ⬝ᵥ u)) • v := by
        have h6 := congrArg (fun w => μ⁻¹ • w) hμu.symm
        simpa [smul_smul, inv_mul_cancel₀ hμ] using h6
      have hane : v ⬝ᵥ u ≠ 0 := by
        intro h0
        apply hu
        rw [hueq, h0]
        simp
      have hvu : v ⬝ᵥ u = μ⁻¹ * -(v ⬝ᵥ u) := by
        conv_lhs => rw [hueq]
        rw [Matrix.dotProduct_smul, hvv]
        simp
      have h2 : (v ⬝ᵥ u) * (1 + μ⁻¹) = 0 := by
        linear_combination hvu
      have h3 : (1 : ℂ) + μ⁻¹ = 0 := by
        rcases mul_eq_zero.mp h2 with h | h
        · exact absurd h hane
        · exact h
      have h4 : μ⁻¹ = -1 := by
        linear_combination h3
      have h5 := congrArg Inv.inv h4
      rw [inv_inv] at h5
      rw [h5]
      norm_num

/-- Witness for C4 at `v = |0>` on one qubit. -/
theorem C4_generator_props_witness :
    (IsRealVec e0 ∧ norm2 e0 = 1) ∧
      ((H_operator e0).IsHermitian ∧
        H_operator e0 = H_operator_spec e0 ∧
        (H_operator e0) *ᵥ e0 = -e0 ∧
        (∀ w : Fin (2 ^ 1) → ℂ, e0 ⬝ᵥ w = 0 → (H_operator e0) *ᵥ w = 0) ∧
        (∀ (μ : ℂ) (u : Fin (2 ^ 1) → ℂ), u ≠ 0 → (H_operator e0) *ᵥ u = μ • u →
          μ = 0 ∨ μ = -1) ∧
        (∀ m : ℕ, B_operator m = H_operator (plus_state m))) :=
  ⟨⟨e0_isReal, e0_norm2⟩, C4_generator_props e0_isReal e0_norm2⟩

theorem tI_dot_tI : tI ⬝ᵥ tI = -1 := by
  rw [Matrix.dotProduct, sum_univ_pow_one, tI_zero, tI_one]
  simp [Complex.I_mul_I]

/-- Counterexample to C4 as stated: the complex unit-norm vector `v = (i, 0)`
satisfies `H_operator(v) · v = +v` (eigenvalue `+1`, not `-1`), and
`H_operator(v)` differs from the spec's `-v·v^H`, because `np.outer` does not
conjugate its second factor. -/
theorem C4_counterexample :
    norm2 tI = 1 ∧ (H_operator tI) *ᵥ tI = tI ∧ tI ≠ -tI ∧
      H_operator tI ≠ H_operator_spec tI := by
  refine ⟨tI_norm2, ?_, ?_, ?_⟩
  · rw [show H_operator tI = -outer tI tI from rfl, Matrix.neg_mulVec, outer_mulVec]
    funext i
    rw [Pi.neg_apply, tI_dot_tI]
    ring
  · intro h
    have h0 := congrFun h 0
    rw [Pi.neg_apply, tI_zero] at h0
    have him := congrArg Complex.im h0
    simp at him
    norm_num at him
  · intro h
    have h00 : H_operator tI 0 0 = H_operator_spec tI 0 0 := by rw [h]
    rw [H_operator_apply, tI_zero] at h00
    simp only [H_operator_spec, Matrix.neg_apply, Matrix.of_apply, tI_zero] at h00
    rw [Complex.I_mul_I, show conj Complex.I = -Complex.I from Complex.conj_I] at h00
    simp at h00
    norm_num at h00

/-- Exponential of a scalar multiple of an idempotent element:
`exp (c • P) = 1 + (exp c - 1) • P` when `P * P = P`. -/
theorem exp_smul_idem_general {A : Type*} [NormedRing A] [NormedAlgebra ℂ A]
    [CompleteSpace A] (c : ℂ) (P : A) (hP : P * P = P) :
    NormedSpace.exp ℂ (c • P) = 1 + (Complex.exp c - 1) • P := by
  have hpow : ∀ k : ℕ, (c • P) ^ (k + 1) = c ^ (k + 1) • P := by
    intro k
    rw [smul_pow, IsIdempotentElem.pow_succ_eq k hP]
  have hsumM : Summable fun n : ℕ => ((Nat.factorial n : ℂ))⁻¹ • (c • P) ^ n :=
    NormedSpace.expSeries_summable' (𝕂 := ℂ) (c • P)
  have hsumS : Summable fun n : ℕ => ((Nat.factorial n : ℂ))⁻¹ • c ^ n :=
    NormedSpace.expSeries_summable' (𝕂 := ℂ) c
  have hsumS' : Summable fun k : ℕ => ((Nat.factorial (k + 1) : ℂ))⁻¹ * c ^ (k + 1) := by
    have h := (summable_nat_add_iff 1).mpr hsumS
    simpa [smul_eq_mul] using h
  have hexpc : Complex.exp c = 1 + tsum (fun k : ℕ => ((Nat.factorial (k + 1) : ℂ))⁻¹ * c ^ (k + 1)) := by
    calc Complex.exp c = tsum (fun n : ℕ => ((Nat.factorial n : ℂ))⁻¹ • c ^ n) := by
          rw [Complex.exp_eq_exp_ℂ]
          simp only [NormedSpace.exp_eq_tsum]
      _ = ((Nat.factorial 0 : ℂ))⁻¹ • c ^ 0 +
          tsum (fun k : ℕ => ((Nat.factorial (k + 1) : ℂ))⁻¹ • c ^ (k + 1)) := tsum_eq_zero_add hsumS
      _ = 1 + tsum (fun k : ℕ => ((Nat.factorial (k + 1) : ℂ))⁻¹ * c ^ (k + 1)) := by
          simp only [smul_eq_mul]
          norm_num
  calc NormedSpace.exp ℂ (c • P)
      = tsum (fun n : ℕ => ((Nat.factorial n : ℂ))⁻¹ • (c • P) ^ n) := by
        simp only [NormedSpace.exp_eq_tsum]
    _ = ((Nat.factorial 0 : ℂ))⁻¹ • (c • P) ^ 0 +
        tsum (fun k : ℕ => ((Nat.factorial (k + 1) : ℂ))⁻¹ • (c • P) ^ (k + 1)) := tsum_eq_zero_add hsumM
    _ = 1 + tsum (fun k : ℕ => (((Nat.factorial (k + 1) : ℂ))⁻¹ * c ^ (k + 1)) • P) := by
        congr 1
        · norm_num
        · refine tsum_congr fun k => ?_
          rw [hpow k, smul_smul]
    _ = 1 + (tsum (fun k : ℕ => ((Nat.factorial (k + 1) : ℂ))⁻¹ * c ^ (k + 1))) • P := by
        rw [tsum_smul_const hsumS']
    _ = 1 + (Complex.exp c - 1) • P := by
        rw [eq_sub_of_add_eq' hexpc.symm]

/-- The idempotent-exponential formula, specialised to square complex
matrices (with the `l∞`-operator norm instances used locally, exactly as in
Mathlib's own matrix-exponential lemmas). -/
theorem exp_smul_idem {N : ℕ} (c : ℂ) (P : Matrix (Fin N) (Fin N) ℂ)
    (hP : P * P = P) :
    NormedSpace.exp ℂ (c • P) = 1 + (Complex.exp c - 1) • P := by
  letI : SeminormedRing (Matrix (Fin N) (Fin N) ℂ) := Matrix.linftyOpSemiNormedRing
  letI : NormedRing (Matrix (Fin N) (Fin N) ℂ) := Matrix.linftyOpNormedRing
  letI : NormedAlgebra ℂ (Matrix (Fin N) (Fin N) ℂ) := Matrix.linftyOpNormedAlgebra
  exact exp_smul_idem_general c P hP

theorem outer_mul_outer {N : ℕ} (u v u' v' : Fin N → ℂ) :
    outer u v * outer u' v' = (v ⬝ᵥ u') • outer u v' := by
  ext i j
  simp only [Matrix.mul_apply, outer, Matrix.of_apply, Matrix.smul_apply,
    smul_eq_mul, Matrix.dotProduct, Finset.sum_mul]
  refine Finset.sum_congr rfl fun k _ => ?_
  ring

theorem outer_plus_idem (n : ℕ) :
    outer (plus_state n) (plus_state n) * outer (plus_state n) (plus_state n) =
      outer (plus_state n) (plus_state n) := by
  rw [outer_mul_outer, dotProduct_self_of_real (plus_state_isReal n),
    plus_state_norm2]
  norm_num

/-- The single-layer propagator exactly as the spec describes it: it takes the
state, BOTH generator matrices `G1` (marking) and `G2` (driver), and the two
angles, and returns `expm(-1j*b*G2) @ expm(-1j*a*G1) @ s` (reference
definition following the spec text, for comparison with the code's
`qaoa_step`). -/
noncomputable def qaoa_step_spec {N : ℕ} (state : Fin N → ℂ)
    (G1 G2 : Matrix (Fin N) (Fin N) ℂ) (a b : ℝ) : Fin N → ℂ :=
  (NormedSpace.exp ℂ ((-Complex.I * (b : ℂ)) • G2)) *ᵥ
    ((NormedSpace.exp ℂ ((-Complex.I * (a : ℂ)) • G1)) *ᵥ state)

/-- C6 (amended): the code's propagator takes only ONE supplied generator (the
marking generator); the driver generator is not a parameter but is re-derived
inside the propagator as `B_operator(n_qubits)`.  With that correction the
application order is as stated: `expm(-1j*b*B_operator(n)) @ expm(-1j*a*G1) @ s`. -/
theorem C6_step_structure (n : ℕ) (s : Fin (2 ^ n) → ℂ)
    (G1 : Matrix (Fin (2 ^ n)) (Fin (2 ^ n)) ℂ) (a b : ℝ) :
    qaoa_step n s G1 a b = qaoa_step_spec s G1 (B_operator n) a b ∧
      qaoa_step n s G1 a b =
        (NormedSpace.exp ℂ ((-Complex.I * (b : ℂ)) • B_operator n)) *ᵥ
          ((NormedSpace.exp ℂ ((-Complex.I * (a : ℂ)) • G1)) *ᵥ s) :=
  ⟨rfl, rfl⟩

theorem plus_dot_e0 : plus_state 1 ⬝ᵥ e0 = 1 / ((Real.sqrt 2 : ℝ) : ℂ) := by
  rw [Matrix.dotProduct, sum_univ_pow_one]
  rw [plus_state_one_apply, plus_state_one_apply]
  show _ * (1 : ℂ) + _ * (0 : ℂ) = _
  rw [mul_one, mul_zero, add_zero]

/-- Evaluation of the driver factor of one step at angle `b = pi` on `|0>`:
`expm(-1j*pi*B_operator(1)) @ |0> = (0, -1)`, which differs from `|0>`. -/
theorem exp_B_pi_e0 :
    (NormedSpace.exp ℂ ((-Complex.I * ((Real.pi : ℝ) : ℂ)) • B_operator 1)) *ᵥ e0 =
      e0 + (-2 : ℂ) • fun i => plus_state 1 i * (1 / ((Real.sqrt 2 : ℝ) : ℂ)) := by
  have hsm : (-Complex.I * ((Real.pi : ℝ) : ℂ)) • B_operator 1 =
      (Complex.I * ((Real.pi : ℝ) : ℂ)) • outer (plus_state 1) (plus_state 1) := by
    rw [show B_operator 1 = -outer (plus_state 1) (plus_state 1) from rfl]
    rw [smul_neg, ← neg_smul]
    congr 1
    ring
  rw [hsm, exp_smul_idem _ _ (outer_plus_idem 1)]
  have hval : Complex.exp (Complex.I * ((Real.pi : ℝ) : ℂ)) = -1 := by
    rw [mul_comm]
    exact Complex.exp_pi_mul_I
  rw [hval]
  rw [show (-1 - 1 : ℂ) = -2 by norm_num]
  rw [Matrix.add_mulVec, Matrix.one_mulVec, Matrix.smul_mulVec_assoc, outer_mulVec,
    plus_dot_e0]

/-- Counterexample to C6 as stated: the propagator does not accept a supplied
driver generator, and its result does depend on `n_qubits` beyond mere matrix
sizing.  With marking generator `G1 = 0`, a supplied driver `G2 = 0`, angles
`(0, pi)` and state `|0>`, the spec's formula returns `|0>` unchanged, but the
code's `qaoa_step` (which re-derives the driver `B_operator(1)` from
`n_qubits`) returns a state differing from `|0>` in its first component. -/
theorem C6_counterexample :
    qaoa_step_spec e0 0 0 0 Real.pi = e0 ∧
      qaoa_step 1 e0 0 0 Real.pi ≠ e0 := by
  constructor
  · unfold qaoa_step_spec
    rw [smul_zero, smul_zero, NormedSpace.exp_zero, Matrix.one_mulVec,
      Matrix.one_mulVec]
  · intro h
    rw [qaoa_step_def] at h
    rw [show (-Complex.I * ((0 : ℝ) : ℂ)) = 0 by norm_num, zero_smul,
      NormedSpace.exp_zero, Matrix.one_mulVec, exp_B_pi_e0] at h
    have h0 := congrFun h 0
    rw [Pi.add_apply, Pi.smul_apply] at h0
    have he00 : e0 0 = 1 := rfl
    rw [he00, plus_state_one_apply, smul_eq_mul] at h0
    have hsq := sqrt_two_sq_complex
    have hne : ((Real.sqrt 2 : ℝ) : ℂ) ≠ 0 := by
      intro hz
      rw [hz, mul_zero] at hsq
      norm_num at hsq
    rw [div_mul_div_comm, one_mul, hsq] at h0
    have : (1 : ℂ) + -2 * (1 / 2) = 0 := by norm_num
    rw [this] at h0
    norm_num at h0

/-- C7 (amended): the uniform-superposition constructor performs no argument
validation at all; for EVERY `n >= 0` (including `n = 0`, which the claim said
must fail) it returns the length-`2^n` vector whose every entry is
`1/sqrt(2^n)`, of unit norm. -/
theorem C7_plus_state_total (n : ℕ) :
    (∀ i, plus_state n i = (1 : ℂ) / ((Real.sqrt (2 ^ n) : ℝ) : ℂ)) ∧
      norm2 (plus_state n) = 1 :=
  ⟨fun i => plus_state_apply n i, plus_state_norm2 n⟩

/-- Counterexample to C7 as stated: the claim says the constructor fails for
`n < 1`, but at `n = 0` the code `np.array([1]*(2**0))/np.sqrt(2**0)` succeeds
and returns the one-entry unit vector `[1.0]`. -/
theorem C7_counterexample :
    plus_state 0 = (fun _ => 1) ∧ norm2 (plus_state 0) = 1 := by
  constructor
  · funext i
    rw [plus_state_apply]
    norm_num
  · exact plus_state_norm2 0

theorem final_state_params_congr {n : ℕ}
    (H : Matrix (Fin (2 ^ n)) (Fin (2 ^ n)) ℂ) (params params' : ℕ → ℝ) :
    ∀ (l : List ℕ) (s : Fin (2 ^ n) → ℂ),
      (∀ i ∈ l, params (2 * i) = params' (2 * i) ∧
        params (2 * i + 1) = params' (2 * i + 1)) →
      l.foldl (fun s i => qaoa_step n s H (params (2 * i)) (params (2 * i + 1))) s =
        l.foldl (fun s i => qaoa_step n s H (params' (2 * i)) (params' (2 * i + 1))) s := by
  intro l
  induction l with
  | nil => intro s _; rfl
  | cons hd tl ih =>
      intro s hmem
      rw [List.foldl_cons, List.foldl_cons,
        (hmem hd (List.mem_cons_self hd tl)).1, (hmem hd (List.mem_cons_self hd tl)).2]
      exact ih _ fun i hi => hmem i (List.mem_cons_of_mem hd hi)

/-- C10: the evaluator reads only the first `2p` entries of the angle vector:
two angle assignments that agree on all indices `< 2p` produce identical
`(cost, final_state)` pairs.  (Angle vectors are embedded as total functions,
so a "longer" vector is simply one whose extra entries are arbitrary; they
cannot cause an error and are never read.) -/
theorem C10_cost_function_depends_only_on_prefix {n : ℕ}
    (H : Matrix (Fin (2 ^ n)) (Fin (2 ^ n)) ℂ) (p : ℕ) (params params' : ℕ → ℝ)
    (h : ∀ i < 2 * p, params i = params' i) :
    cost_function n H p params = cost_function n H p params' := by
  have hfs : final_state n H p params = final_state n H p params' := by
    unfold final_state
    refine final_state_params_congr H params params' (List.range p) (plus_state n) ?_
    intro i hi
    have hip : i < p := List.mem_range.mp hi
    exact ⟨h (2 * i) (by omega), h (2 * i + 1) (by omega)⟩
  unfold cost_function
  rw [hfs]

/-- Witness for C10 at `n = 1`, `p = 1`, with two angle vectors agreeing on
indices `0, 1` and differing from index `2` on. -/
theorem C10_cost_function_depends_only_on_prefix_witness :
    (∀ i < 2 * 1, (fun j : ℕ => if j < 2 then (1 : ℝ) else 5) i =
        (fun j : ℕ => if j < 2 then (1 : ℝ) else 7) i) ∧
      cost_function 1 (H_operator e0) 1 (fun j => if j < 2 then (1 : ℝ) else 5) =
        cost_function 1 (H_operator e0) 1 (fun j => if j < 2 then (1 : ℝ) else 7) :=
  ⟨fun i hi => by simp [hi], C10_cost_function_depends_only_on_prefix
    (H_operator e0) 1 _ _ (fun i hi => by simp [hi])⟩

namespace Lecture3

/-- `initial_state(n_qubits)` of the Lecture 3 notebook: the `n`-fold tensor
power of the single-qubit plus state `(|0>+|1>)/sqrt 2`, built by iterated
`qit.state.tensor`; its value is the length-`2^n` vector with every entry
`1/sqrt(2^n)`. -/
noncomputable def initial_state (n_qubits : ℕ) : Fin (2 ^ n_qubits) → ℂ :=
  fun _ => (1 : ℂ) / (Real.sqrt (2 ^ n_qubits) : ℝ)

/-- `qit.state.projector(t)`: the rank-one projector `|t><t|`, with entries
`t i * conj (t j)`.  (Unlike `np.outer`, `qit` does conjugate.) -/
noncomputable def projector {N : ℕ} (t : Fin N → ℂ) : Matrix (Fin N) (Fin N) ℂ :=
  Matrix.of fun i j => t i * conj (t j)

/-- `C_operator(target_state, n_qubits)`: `-1*qit.state.projector(target_state)`. -/
noncomputable def C_operator {N : ℕ} (target_state : Fin N → ℂ) (_n_qubits : ℕ) :
    Matrix (Fin N) (Fin N) ℂ :=
  -projector target_state

/-- `B_operator(n_qubits)`: `-1*qit.state.projector(initial_state(n_qubits))`. -/
noncomputable def B_operator (n_qubits : ℕ) :
    Matrix (Fin (2 ^ n_qubits)) (Fin (2 ^ n_qubits)) ℂ :=
  -projector (initial_state n_qubits)

/-- `state.propagate(H, t)` of `qit`: Schrodinger propagation
`exp(-1j*t*H) @ state`. -/
noncomputable def propagate {N : ℕ} (state : Fin N → ℂ)
    (H : Matrix (Fin N) (Fin N) ℂ) (t : ℝ) : Fin N → ℂ :=
  (NormedSpace.exp ℂ ((-Complex.I * (t : ℂ)) • H)) *ᵥ state

/-- Lecture 3 `qaoa_step(state, target_state, n_qubits, params)`: both
generators are re-derived inside the step from the target state and the qubit
count. -/
noncomputable def qaoa_step (n_qubits : ℕ) (state : Fin (2 ^ n_qubits) → ℂ)
    (target_state : Fin (2 ^ n_qubits) → ℂ) (a b : ℝ) : Fin (2 ^ n_qubits) → ℂ :=
  propagate (propagate state (C_operator target_state n_qubits) a)
    (B_operator n_qubits) b

/-- The loop of `F_function`: `p` QAOA steps from the uniform state. -/
noncomputable def F_state (n_qubits : ℕ) (target_state : Fin (2 ^ n_qubits) → ℂ)
    (p : ℕ) (params : ℕ → ℝ) : Fin (2 ^ n_qubits) → ℂ :=
  (List.range p).foldl
    (fun s i => qaoa_step n_qubits s target_state (params (2 * i)) (params (2 * i + 1)))
    (initial_state n_qubits)

/-- `F_function(target_state, n_qubits, p, params)`: returns
`(ini_state.ev(C_operator(...)), ini_state)` where `ev` is the real
expectation value of the operator in the state. -/
noncomputable def F_function (n_qubits : ℕ) (target_state : Fin (2 ^ n_qubits) → ℂ)
    (p : ℕ) (params : ℕ → ℝ) : ℝ × (Fin (2 ^ n_qubits) → ℂ) :=
  ((star (F_state n_qubits target_state p params) ⬝ᵥ
      (C_operator target_state n_qubits) *ᵥ F_state n_qubits target_state p params).re,
    F_state n_qubits target_state p params)

/-- `qit.state.fidelity(a, b)` for pure state vectors: `|<a|b>|`
(the notebook records its square). -/
noncomputable def fidelity {N : ℕ} (a b : Fin N → ℂ) : ℝ :=
  Complex.abs (star a ⬝ᵥ b)

/-- `get_params(target_state, n_qubits, p, params_0)`: runs
`scipy.optimize.basinhopping` on the objective
`fun x = F_function(target_state, n_qubits, p, params=x)[0]` starting from
`params_0`, and returns the first `2p` components of `result.x`.  The global
optimizer is an external library routine; it is modelled by an oracle `bh`
taking the objective and the start point to the returned `result.x`. -/
noncomputable def get_params {n_qubits : ℕ}
    (bh : (List ℝ → ℝ) → List ℝ → List ℝ)
    (target_state : Fin (2 ^ n_qubits) → ℂ) (p : ℕ) (params_0 : List ℝ) : List ℝ :=
  (bh (fun x => (F_function n_qubits target_state p (fun i => x.getD i 0)).1)
    params_0).take (2 * p)

/-- The state of the `calc_n_p` loop after `i` iterations:
`(qaoa_approximation, p_array, params)`.  Each iteration optimizes from the
current running `params`, records `fidelity(target, state)**2` and the depth,
and then extends `params` with `[0, 0]`. -/
noncomputable def sweep {n_qubits : ℕ} (bh : (List ℝ → ℝ) → List ℝ → List ℝ)
    (target_state : Fin (2 ^ n_qubits) → ℂ) : ℕ → List ℝ × List ℕ × List ℝ
  | 0 => ([], [], [0.5 * Real.pi, 0.5 * Real.pi])
  | i + 1 =>
      let prev := sweep bh target_state i
      let params1 := get_params bh target_state (i + 1) prev.2.2
      let st := (F_function n_qubits target_state (i + 1) (fun j => params1.getD j 0)).2
      (prev.1 ++ [fidelity target_state st ^ 2], prev.2.1 ++ [i + 1], params1 ++ [0, 0])

/-- `calc_n_p(target_state, n_qbits, p_steps)`: returns the pair
`(qaoa_approximation, p_array)` after `p_steps` iterations. -/
noncomputable def calc_n_p {n_qubits : ℕ} (bh : (List ℝ → ℝ) → List ℝ → List ℝ)
    (target_state : Fin (2 ^ n_qubits) → ℂ) (p_steps : ℕ) : List ℝ × List ℕ :=
  ((sweep bh target_state p_steps).1, (sweep bh target_state p_steps).2.1)

/-- The running warm-start vector as the spec describes it: seeded with
`[pi/2, pi/2]`, and after optimizing depth `p` it is the optimizer output
extended by two zero angles. -/
noncomputable def warm_params {n_qubits : ℕ} (bh : (List ℝ → ℝ) → List ℝ → List ℝ)
    (target_state : Fin (2 ^ n_qubits) → ℂ) : ℕ → List ℝ
  | 0 => [0.5 * Real.pi, 0.5 * Real.pi]
  | p + 1 => get_params bh target_state (p + 1) (warm_params bh target_state p) ++ [0, 0]

end Lecture3

namespace Lecture3

theorem sweep_params_eq_warm {n : ℕ} (bh : (List ℝ → ℝ) → List ℝ → List ℝ)
    (t : Fin (2 ^ n) → ℂ) : ∀ i, (sweep bh t i).2.2 = warm_params bh t i := by
  intro i
  induction i with
  | zero => rfl
  | succ k ih =>
      simp only [sweep, warm_params]
      rw [ih]

theorem sweep_fst_succ {n : ℕ} (bh : (List ℝ → ℝ) → List ℝ → List ℝ)
    (t : Fin (2 ^ n) → ℂ) (k : ℕ) :
    (sweep bh t (k + 1)).1 = (sweep bh t k).1 ++
      [fidelity t ((F_function n t (k + 1)
        (fun j => (get_params bh t (k + 1) (warm_params bh t k)).getD j 0)).2) ^ 2] := by
  simp only [sweep]
  rw [sweep_params_eq_warm]

theorem sweep_snd_succ {n : ℕ} (bh : (List ℝ → ℝ) → List ℝ → List ℝ)
    (t : Fin (2 ^ n) → ℂ) (k : ℕ) :
    (sweep bh t (k + 1)).2.1 = (sweep bh t k).2.1 ++ [k + 1] := by
  simp only [sweep]

theorem sweep_lengths {n : ℕ} (bh : (List ℝ → ℝ) → List ℝ → List ℝ)
    (t : Fin (2 ^ n) → ℂ) : ∀ i, (sweep bh t i).1.length = i ∧
      (sweep bh t i).2.1.length = i := by
  intro i
  induction i with
  | zero => exact ⟨rfl, rfl⟩
  | succ k ih =>
      rw [sweep_fst_succ, sweep_snd_succ, List.length_append, List.length_append,
        ih.1, ih.2]
      exact ⟨rfl, rfl⟩

theorem sweep_fst_getElem_stable {n : ℕ} (bh : (List ℝ → ℝ) → List ℝ → List ℝ)
    (t : Fin (2 ^ n) → ℂ) : ∀ P p, p < P →
      (sweep bh t P).1[p]? = (sweep bh t (p + 1)).1[p]? := by
  intro P
  induction P with
  | zero => intro p hp; omega
  | succ K ih =>
      intro p hp
      rcases Nat.lt_succ_iff_lt_or_eq.mp hp with h | h
      · rw [sweep_fst_succ,
          List.getElem?_append_left (by rw [(sweep_lengths bh t K).1]; omega)]
        exact ih p h
      · rw [h]

theorem sweep_snd_getElem_stable {n : ℕ} (bh : (List ℝ → ℝ) → List ℝ → List ℝ)
    (t : Fin (2 ^ n) → ℂ) : ∀ P p, p < P →
      (sweep bh t P).2.1[p]? = (sweep bh t (p + 1)).2.1[p]? := by
  intro P
  induction P with
  | zero => intro p hp; omega
  | succ K ih =>
      intro p hp
      rcases Nat.lt_succ_iff_lt_or_eq.mp hp with h | h
      · rw [sweep_snd_succ,
          List.getElem?_append_left (by rw [(sweep_lengths bh t K).2]; omega)]
        exact ih p h
      · rw [h]

/-- C5: the depth-sweep driver `calc_n_p` maintains a running angle vector
(`warm_params`): seeded with `[pi/2, pi/2]`, for each `p = 1..P` it calls the
optimizer (`get_params`, modelled over the basin-hopping oracle `bh`) with the
current running vector as warm start, records the pair
`(p, fidelity(target, final_state at the optimized angles)^2)`, and then
extends the running vector by appending two zero angles. -/
theorem C5_depth_sweep {n : ℕ} (bh : (List ℝ → ℝ) → List ℝ → List ℝ)
    (t : Fin (2 ^ n) → ℂ) (P p : ℕ) (hp1 : 1 ≤ p) (hpP : p ≤ P) :
    (calc_n_p bh t P).2[p - 1]? = some p ∧
      (calc_n_p bh t P).1[p - 1]? = some
        (fidelity t ((F_function n t p
          (fun j => (get_params bh t p (warm_params bh t (p - 1))).getD j 0)).2) ^ 2) ∧
      warm_params bh t p = get_params bh t p (warm_params bh t (p - 1)) ++ [0, 0] ∧
      (calc_n_p bh t P).1.length = P ∧ (calc_n_p bh t P).2.length = P := by
  obtain ⟨q, rfl⟩ : ∃ q, p = q + 1 := ⟨p - 1, (Nat.succ_pred_eq_of_pos hp1).symm⟩
  have hq : q + 1 - 1 = q := rfl
  refine ⟨?_, ?_, ?_, (sweep_lengths bh t P).1, (sweep_lengths bh t P).2⟩
  · rw [hq]
    have hstable : (sweep bh t P).2.1[q]? = (sweep bh t (q + 1)).2.1[q]? := by
      rcases Nat.lt_or_ge q P with h | h
      · rcases Nat.lt_succ_iff_lt_or_eq.mp (Nat.lt_succ_of_lt h) with h2 | h2
        · exact sweep_snd_getElem_stable bh t P q (by omega)
        · omega
      · omega
    show (sweep bh t P).2.1[q]? = some (q + 1)
    rw [hstable, sweep_snd_succ]
    have hcl := List.getElem?_concat_length (sweep bh t q).2.1 (q + 1)
    rw [(sweep_lengths bh t q).2] at hcl
    exact hcl
  · rw [hq]
    have hstable : (sweep bh t P).1[q]? = (sweep bh t (q + 1)).1[q]? := by
      rcases Nat.lt_or_ge q P with h | h
      · exact sweep_fst_getElem_stable bh t P q (by omega)
      · omega
    show (sweep bh t P).1[q]? = _
    rw [hstable, sweep_fst_succ]
    have hcl := List.getElem?_concat_length (sweep bh t q).1
      (fidelity t ((F_function n t (q + 1)
        (fun j => (get_params bh t (q + 1) (warm_params bh t q)).getD j 0)).2) ^ 2)
    rw [(sweep_lengths bh t q).1] at hcl
    exact hcl
  · rw [hq]
    rfl

/-- Witness for C5 at `n = 1`, target `|0>`, identity oracle, `P = p = 1`. -/
theorem C5_depth_sweep_witness :
    ((1 : ℕ) ≤ 1 ∧ (1 : ℕ) ≤ 1) ∧
      ((calc_n_p (fun _ s => s) Island.e0 1).2[1 - 1]? = some 1 ∧
        (calc_n_p (fun _ s => s) Island.e0 1).1[1 - 1]? = some
          (fidelity Island.e0 ((F_function 1 Island.e0 1
            (fun j => (get_params (fun _ s => s) Island.e0 1
              (warm_params (fun _ s => s) Island.e0 (1 - 1))).getD j 0)).2) ^ 2) ∧
        warm_params (fun _ s => s) Island.e0 1 =
          get_params (fun _ s => s) Island.e0 1
            (warm_params (fun _ s => s) Island.e0 (1 - 1)) ++ [0, 0] ∧
        (calc_n_p (fun _ s => s) Island.e0 1).1.length = 1 ∧
        (calc_n_p (fun _ s => s) Island.e0 1).2.length = 1) :=
  ⟨⟨le_refl 1, le_refl 1⟩,
    C5_depth_sweep (fun _ s => s) Island.e0 1 1 (le_refl 1) (le_refl 1)⟩

end Lecture3

namespace Lecture3

theorem initial_state_eq (n : ℕ) : initial_state n = Island.plus_state n := rfl

theorem initial_state_one_apply (i : Fin (2 ^ 1)) :
    initial_state 1 i = 1 / ((Real.sqrt 2 : ℝ) : ℂ) :=
  plus_state_one_apply i

theorem initial_state_norm2 (n : ℕ) : norm2 (initial_state n) = 1 :=
  plus_state_norm2 n

theorem propagate_zero {N : ℕ} (s : Fin N → ℂ) (H : Matrix (Fin N) (Fin N) ℂ) :
    propagate s H 0 = s := by
  unfold propagate
  simp [NormedSpace.exp_zero, Matrix.one_mulVec]

theorem qaoa_step_zero_angles (n : ℕ) (s t : Fin (2 ^ n) → ℂ) :
    qaoa_step n s t 0 0 = s := by
  unfold qaoa_step
  rw [propagate_zero, propagate_zero]

theorem projector_eq_outer_star {N : ℕ} (t : Fin N → ℂ) :
    projector t = outer t (star t) := rfl

theorem projector_mulVec {N : ℕ} (t s : Fin N → ℂ) :
    (projector t) *ᵥ s = fun i => t i * (star t ⬝ᵥ s) := by
  rw [projector_eq_outer_star, outer_mulVec]

theorem projector_idem {N : ℕ} {t : Fin N → ℂ} (hn : norm2 t = 1) :
    projector t * projector t = projector t := by
  rw [projector_eq_outer_star, outer_mul_outer, star_dotProduct_self, hn]
  norm_num

/-- Propagation by a negated rank-one projector, in closed form. -/
theorem propagate_neg_projector {N : ℕ} {t : Fin N → ℂ} (hn : norm2 t = 1)
    (s : Fin N → ℂ) (θ : ℝ) :
    propagate s (-projector t) θ =
      s + (Complex.exp (Complex.I * (θ : ℂ)) - 1) •
        fun i => t i * (star t ⬝ᵥ s) := by
  unfold propagate
  have hsm : (-Complex.I * (θ : ℂ)) • (-projector t) =
      (Complex.I * (θ : ℂ)) • projector t := by
    rw [smul_neg, ← neg_smul]
    congr 1
    ring
  rw [hsm, exp_smul_idem _ _ (projector_idem hn), Matrix.add_mulVec,
    Matrix.one_mulVec, Matrix.smul_mulVec_assoc, projector_mulVec]

theorem exp_I_pi_half :
    Complex.exp (Complex.I * ((Real.pi / 2 : ℝ) : ℂ)) = Complex.I := by
  rw [mul_comm, Complex.exp_mul_I, ← Complex.ofReal_cos, ← Complex.ofReal_sin,
    Real.cos_pi_div_two, Real.sin_pi_div_two]
  simp

/-- The final state of the depth-1 layer at the optimal angles
`(pi/2, pi/2)` for target `|0>`: `((i-1)/sqrt 2, 0)`. -/
noncomputable def s2C8 : Fin (2 ^ 1) → ℂ := ![(Complex.I - 1) / ((Real.sqrt 2 : ℝ) : ℂ), 0]

theorem e0_dot_initial :
    star Island.e0 ⬝ᵥ initial_state 1 = 1 / ((Real.sqrt 2 : ℝ) : ℂ) := by
  rw [Matrix.dotProduct, sum_univ_pow_one]
  rw [initial_state_one_apply, initial_state_one_apply]
  show star (Island.e0 0) * _ + star (Island.e0 1) * _ = _
  rw [show Island.e0 0 = 1 from rfl, show Island.e0 1 = 0 from rfl]
  simp

theorem e0_mk0 (h : 0 < 2 ^ 1) : Island.e0 ⟨0, h⟩ = 1 := rfl

theorem e0_mk1 (h : 1 < 2 ^ 1) : Island.e0 ⟨1, h⟩ = 0 := rfl

theorem s2C8_mk0 (h : 0 < 2 ^ 1) :
    s2C8 ⟨0, h⟩ = (Complex.I - 1) / ((Real.sqrt 2 : ℝ) : ℂ) := rfl

theorem s2C8_mk1 (h : 1 < 2 ^ 1) : s2C8 ⟨1, h⟩ = 0 := rfl

theorem F1_step_eval :
    qaoa_step 1 (initial_state 1) Island.e0 (Real.pi / 2) (Real.pi / 2) = s2C8 := by
  have hsq := sqrt_two_sq_complex
  have h2 : (1 : ℂ) / ((Real.sqrt 2 : ℝ) : ℂ) * (1 / ((Real.sqrt 2 : ℝ) : ℂ)) =
      1 / 2 := by
    rw [div_mul_div_comm, one_mul, hsq]
  unfold qaoa_step
  rw [show C_operator Island.e0 1 = -projector Island.e0 from rfl,
    show B_operator 1 = -projector (initial_state 1) from rfl,
    propagate_neg_projector Island.e0_norm2,
    propagate_neg_projector (initial_state_norm2 1),
    exp_I_pi_half, e0_dot_initial]
  have hdot2 : star (initial_state 1) ⬝ᵥ
      (initial_state 1 + (Complex.I - 1) •
        fun i => Island.e0 i * (1 / ((Real.sqrt 2 : ℝ) : ℂ))) =
      (Complex.I + 1) / 2 := by
    rw [Matrix.dotProduct, sum_univ_pow_one]
    simp only [Pi.add_apply, Pi.smul_apply, Pi.star_apply, smul_eq_mul]
    rw [initial_state_one_apply, initial_state_one_apply,
      show Island.e0 0 = 1 from rfl, show Island.e0 1 = 0 from rfl]
    rw [show star ((1 : ℂ) / ((Real.sqrt 2 : ℝ) : ℂ)) =
      1 / ((Real.sqrt 2 : ℝ) : ℂ) by simp [Complex.ext_iff]]
    linear_combination (Complex.I + 1) * h2
  rw [hdot2]
  funext i
  simp only [Pi.add_apply, Pi.smul_apply, smul_eq_mul]
  fin_cases i
  · simp only [initial_state_one_apply, e0_mk0, s2C8_mk0]
    linear_combination (1 / ((Real.sqrt 2 : ℝ) : ℂ) / 2) * Complex.I_sq
  · simp only [initial_state_one_apply, e0_mk1, s2C8_mk1]
    linear_combination (1 / ((Real.sqrt 2 : ℝ) : ℂ) / 2) * Complex.I_sq

end Lecture3

namespace Lecture3

theorem e0_dot_s2C8 :
    star Island.e0 ⬝ᵥ s2C8 = (Complex.I - 1) / ((Real.sqrt 2 : ℝ) : ℂ) := by
  rw [Matrix.dotProduct, sum_univ_pow_one]
  show star (Island.e0 0) * s2C8 0 + star (Island.e0 1) * s2C8 1 = _
  rw [show Island.e0 0 = 1 from rfl, show Island.e0 1 = 0 from rfl,
    show s2C8 0 = (Complex.I - 1) / ((Real.sqrt 2 : ℝ) : ℂ) from rfl,
    show s2C8 1 = 0 from rfl]
  simp

theorem fidelity_sq_s2C8 : fidelity Island.e0 s2C8 ^ 2 = 1 := by
  rw [fidelity, Complex.sq_abs, e0_dot_s2C8, Complex.normSq_div]
  rw [show Complex.normSq (Complex.I - 1) = 2 by
    norm_num [Complex.normSq_apply], Complex.normSq_ofReal,
    Real.mul_self_sqrt (by norm_num : (0 : ℝ) ≤ 2)]
  norm_num

theorem fidelity_sq_initial : fidelity Island.e0 (initial_state 1) ^ 2 = 1 / 2 := by
  rw [fidelity, Complex.sq_abs, e0_dot_initial, Complex.normSq_div,
    Complex.normSq_one, Complex.normSq_ofReal,
    Real.mul_self_sqrt (by norm_num : (0 : ℝ) ≤ 2)]

/-- An optimizer-oracle instance that models a basin-hopping run which finds
the depth-1 optimum `[pi/2, pi/2]` but exhausts its budget at depth 2 without
improvement, returning the all-zero angle vector (whose cost `-1/2` is worse
than depth 1's `-1`). -/
noncomputable def bh8 : (List ℝ → ℝ) → List ℝ → List ℝ :=
  fun _obj start =>
    if start.length = 2 then [Real.pi / 2, Real.pi / 2] else [0, 0, 0, 0]

theorem zeros_fun : (fun j => ([0, 0, 0, 0] : List ℝ).getD j 0) = fun _ => (0 : ℝ) := by
  funext j
  rcases j with _ | _ | _ | _ | j <;> rfl

theorem F_state_pi_half :
    F_state 1 Island.e0 1 (fun j => ([Real.pi / 2, Real.pi / 2] : List ℝ).getD j 0) =
      s2C8 := by
  unfold F_state
  rw [show List.range 1 = [0] from rfl, List.foldl_cons, List.foldl_nil]
  show qaoa_step 1 (initial_state 1)
    Island.e0 (([Real.pi / 2, Real.pi / 2] : List ℝ).getD (2 * 0) 0)
    (([Real.pi / 2, Real.pi / 2] : List ℝ).getD (2 * 0 + 1) 0) = s2C8
  rw [show (([Real.pi / 2, Real.pi / 2] : List ℝ).getD (2 * 0) 0) = Real.pi / 2 from rfl,
    show (([Real.pi / 2, Real.pi / 2] : List ℝ).getD (2 * 0 + 1) 0) = Real.pi / 2 from rfl]
  exact F1_step_eval

theorem F_state_zero4 :
    F_state 1 Island.e0 2 (fun j => ([0, 0, 0, 0] : List ℝ).getD j 0) =
      initial_state 1 := by
  rw [zeros_fun]
  unfold F_state
  rw [show List.range 2 = [0, 1] from rfl, List.foldl_cons, List.foldl_cons,
    List.foldl_nil]
  rw [qaoa_step_zero_angles, qaoa_step_zero_angles]

theorem get_params_bh8_1 :
    get_params bh8 Island.e0 1 [0.5 * Real.pi, 0.5 * Real.pi] =
      [Real.pi / 2, Real.pi / 2] := rfl

theorem get_params_bh8_2 :
    get_params bh8 Island.e0 2 [Real.pi / 2, Real.pi / 2, 0, 0] =
      [0, 0, 0, 0] := rfl

theorem sweep_bh8_1_fst : (sweep bh8 Island.e0 1).1 = [1] := by
  rw [sweep_fst_succ]
  rw [show warm_params bh8 Island.e0 0 = [0.5 * Real.pi, 0.5 * Real.pi] from rfl,
    get_params_bh8_1]
  rw [show (sweep bh8 Island.e0 0).1 = [] from rfl]
  rw [show (F_function 1 Island.e0 1
    (fun j => ([Real.pi / 2, Real.pi / 2] : List ℝ).getD j 0)).2 =
    F_state 1 Island.e0 1
      (fun j => ([Real.pi / 2, Real.pi / 2] : List ℝ).getD j 0) from rfl]
  rw [F_state_pi_half, fidelity_sq_s2C8]
  rfl

theorem warm_params_bh8_1 :
    warm_params bh8 Island.e0 1 = [Real.pi / 2, Real.pi / 2, 0, 0] := by
  rw [show warm_params bh8 Island.e0 1 =
    get_params bh8 Island.e0 1 (warm_params bh8 Island.e0 0) ++ [0, 0] from rfl]
  rw [show warm_params bh8 Island.e0 0 = [0.5 * Real.pi, 0.5 * Real.pi] from rfl,
    get_params_bh8_1]
  rfl

theorem sweep_bh8_2_fst : (sweep bh8 Island.e0 2).1 = [1, 1 / 2] := by
  rw [sweep_fst_succ, sweep_bh8_1_fst, warm_params_bh8_1, get_params_bh8_2]
  rw [show (F_function 1 Island.e0 2
    (fun j => ([0, 0, 0, 0] : List ℝ).getD j 0)).2 =
    F_state 1 Island.e0 2 (fun j => ([0, 0, 0, 0] : List ℝ).getD j 0) from rfl]
  rw [F_state_zero4, fidelity_sq_initial]
  rfl

/-- C8 (amended): the driver has no fallback logic whatsoever: at every depth
`p` it records the fidelity produced by the optimizer's returned angles
unconditionally, with no comparison against the previous depth's cost, so a
non-improving optimizer result is recorded (and its zero-extended angles are
propagated) as-is. -/
theorem C8_records_unconditionally {n : ℕ} (bh : (List ℝ → ℝ) → List ℝ → List ℝ)
    (t : Fin (2 ^ n) → ℂ) (P p : ℕ) (hp1 : 1 ≤ p) (hpP : p ≤ P) :
    (calc_n_p bh t P).1[p - 1]? = some
      (fidelity t ((F_function n t p
        (fun j => (get_params bh t p (warm_params bh t (p - 1))).getD j 0)).2) ^ 2) := by
  obtain ⟨q, rfl⟩ : ∃ q, p = q + 1 := ⟨p - 1, (Nat.succ_pred_eq_of_pos hp1).symm⟩
  rw [show q + 1 - 1 = q from rfl]
  have hstable : (sweep bh t P).1[q]? = (sweep bh t (q + 1)).1[q]? := by
    rcases Nat.lt_or_ge q P with h | h
    · exact sweep_fst_getElem_stable bh t P q (by omega)
    · omega
  show (sweep bh t P).1[q]? = _
  rw [hstable, sweep_fst_succ]
  have hcl := List.getElem?_concat_length (sweep bh t q).1
    (fidelity t ((F_function n t (q + 1)
      (fun j => (get_params bh t (q + 1) (warm_params bh t q)).getD j 0)).2) ^ 2)
  rw [(sweep_lengths bh t q).1] at hcl
  exact hcl

/-- Witness for the amended C8 at `n = 1`, target `|0>`, an oracle returning
`[0, 0]`, `P = p = 1`. -/
theorem C8_records_unconditionally_witness :
    ((1 : ℕ) ≤ 1 ∧ (1 : ℕ) ≤ 1) ∧
      (calc_n_p (fun _ _ => [0, 0]) Island.e0 1).1[1 - 1]? = some
        (fidelity Island.e0 ((F_function 1 Island.e0 1
          (fun j => (get_params (fun _ _ => [0, 0]) Island.e0 1
            (warm_params (fun _ _ => [0, 0]) Island.e0 (1 - 1))).getD j 0)).2) ^ 2) :=
  ⟨⟨le_refl 1, le_refl 1⟩,
    C8_records_unconditionally (fun _ _ => [0, 0]) Island.e0 1 1 (le_refl 1) (le_refl 1)⟩

/-- Counterexample to C8 as stated: with an optimizer run that returns the
depth-1 optimum `[pi/2, pi/2]` (fidelity `1`, cost `-1`) and then fails to
improve at depth 2 (returning all-zero angles with fidelity `1/2`, cost
`-1/2`, strictly worse), the driver records the worse depth-2 result instead
of falling back to the previous best angles padded with zeros: the recorded
fidelity sequence is `[1, 1/2]`, which propagates a worse-than-previous
cost. -/
theorem C8_counterexample :
    (calc_n_p bh8 Island.e0 2).1 = [1, 1 / 2] ∧ ((1 : ℝ) / 2) < 1 := by
  refine ⟨?_, by norm_num⟩
  show (sweep bh8 Island.e0 2).1 = _
  exact sweep_bh8_2_fst

end Lecture3

end Island
